import Mathlib

/-!
Verification development for the mindgen mind-map rendering engine
(mindgen.js).  The definitions below are a shallow embedding of the
tree data model, the collapse/expand operations, the d3-style
flattening into visible nodes and links, the box collision force, the
option-resolution logic and the background double-click handler.
Numbers that are IEEE doubles in the source are modelled as rationals.
-/

namespace Mindgen

/-! ## Tree data model

A mindmap node is `{ id, text, pinned?, children?, _children? }`.
`children`/`_children` are optional arrays; `_children` (here
`hiddenChildren`) stores the subtree of a collapsed node.  An absent
array is `none`, a present (possibly empty) array is `some l` —
matching JavaScript, where `undefined` is falsy but `[]` is truthy. -/

inductive TreeNode : Type where
  | mk (id : String) (text : String) (pinned : Bool)
       (children : Option (List TreeNode))
       (hiddenChildren : Option (List TreeNode)) : TreeNode

def TreeNode.id : TreeNode → String
  | .mk i _ _ _ _ => i

def TreeNode.text : TreeNode → String
  | .mk _ s _ _ _ => s

def TreeNode.pinned : TreeNode → Bool
  | .mk _ _ p _ _ => p

def TreeNode.children : TreeNode → Option (List TreeNode)
  | .mk _ _ _ c _ => c

def TreeNode.hiddenChildren : TreeNode → Option (List TreeNode)
  | .mk _ _ _ _ h => h

/-- Visible child array of a node; the empty list when `children` is
absent (d3.hierarchy's default accessor `d => d.children` yields no
child nodes for an absent or empty array). -/
def childrenList (t : TreeNode) : List TreeNode := t.children.getD []

/-- Hidden child array of a node; the empty list when `_children` is
absent. -/
def hiddenList (t : TreeNode) : List TreeNode := t.hiddenChildren.getD []

/-- Embeds `hasChildren`: `Boolean(n.data.children && n.data.children.length)`. -/
def hasChildren (t : TreeNode) : Bool :=
  match t.children with
  | some l => !l.isEmpty
  | none => false

/-- Embeds `isCollapsed`:
`Boolean(!d.children && d._children && d._children.length)`.
An absent `children` is falsy while a present empty array is truthy,
hence the `isNone` test. -/
def isCollapsed (t : TreeNode) : Bool :=
  t.children.isNone &&
    (match t.hiddenChildren with
     | some l => !l.isEmpty
     | none => false)

/-- Embeds `collapse(d)`: `if (!d.children) return;` then
`d._children = d.children; d.children = undefined;`.  Note that a
present `children` array (even empty) is moved and overwrites any
existing `_children`. -/
def collapse (t : TreeNode) : TreeNode :=
  match t with
  | .mk i s p none hd => .mk i s p none hd
  | .mk i s p (some cs) _ => .mk i s p none (some cs)

/-- Embeds `expandOne(d)`: `if (!d._children) return;` then
`d.children = d._children; d._children = undefined;` followed by
re-collapsing every direct child that has a `children` array
(the `forEach` body is exactly `collapse` applied to the child). -/
def expandOne (t : TreeNode) : TreeNode :=
  match t with
  | .mk i s p ch none => .mk i s p ch none
  | .mk i s p _ (some hs) => .mk i s p (some (hs.map collapse)) none

/-! ## Flattening (d3.hierarchy / descendants / links)

`d3.hierarchy(data)` traverses only the `children` field, so nodes
stored under `_children` are never reached.  `root.descendants()`
returns every traversed node and `root.links()` one
`{source: parent, target: child}` pair per traversed edge. -/

mutual

/-- Embeds the set of nodes produced by
`d3.hierarchy(data).descendants()`: the node itself followed by the
flattening of its `children` field. -/
def visibles : TreeNode → List TreeNode
  | .mk i s p ch hd => .mk i s p ch hd :: visiblesO ch
termination_by t => sizeOf t
decreasing_by all_goals (simp_wf; try omega)

def visiblesO : Option (List TreeNode) → List TreeNode
  | none => []
  | some l => visiblesL l
termination_by o => sizeOf o
decreasing_by all_goals (simp_wf; try omega)

def visiblesL : List TreeNode → List TreeNode
  | [] => []
  | c :: cs => visibles c ++ visiblesL cs
termination_by l => sizeOf l
decreasing_by all_goals (simp_wf; try omega)

end

mutual

/-- Embeds `d3.hierarchy(data).links()` as the list of
(parent, child) pairs over traversed (visible) nodes. -/
def hlinks : TreeNode → List (TreeNode × TreeNode)
  | .mk i s p ch hd =>
      (ch.getD []).map (fun c => (.mk i s p ch hd, c)) ++ hlinksO ch
termination_by t => sizeOf t
decreasing_by all_goals (simp_wf; try omega)

def hlinksO : Option (List TreeNode) → List (TreeNode × TreeNode)
  | none => []
  | some l => hlinksL l
termination_by o => sizeOf o
decreasing_by all_goals (simp_wf; try omega)

def hlinksL : List TreeNode → List (TreeNode × TreeNode)
  | [] => []
  | c :: cs => hlinks c ++ hlinksL cs
termination_by l => sizeOf l
decreasing_by all_goals (simp_wf; try omega)

end

mutual

/-- Structural invariant from the data model: no node of the tree has
both `children` and `_children` present at once. -/
def invOk : TreeNode → Bool
  | .mk _ _ _ ch hd => !(ch.isSome && hd.isSome) && invOkO ch && invOkO hd
termination_by t => sizeOf t
decreasing_by all_goals (simp_wf; try omega)

def invOkO : Option (List TreeNode) → Bool
  | none => true
  | some l => invOkL l
termination_by o => sizeOf o
decreasing_by all_goals (simp_wf; try omega)

def invOkL : List TreeNode → Bool
  | [] => true
  | c :: cs => invOk c && invOkL cs
termination_by l => sizeOf l
decreasing_by all_goals (simp_wf; try omega)

end

mutual

/-- All ids stored anywhere in the tree, visible or hidden; used to
express that collapse/expand move subtrees without destroying them. -/
def idsOf : TreeNode → List String
  | .mk i _ _ ch hd => i :: (idsOfO ch ++ idsOfO hd)
termination_by t => sizeOf t
decreasing_by all_goals (simp_wf; try omega)

def idsOfO : Option (List TreeNode) → List String
  | none => []
  | some l => idsOfL l
termination_by o => sizeOf o
decreasing_by all_goals (simp_wf; try omega)

def idsOfL : List TreeNode → List String
  | [] => []
  | c :: cs => idsOf c ++ idsOfL cs
termination_by l => sizeOf l
decreasing_by all_goals (simp_wf; try omega)

end

mutual

/-- Holds when no node of the subtree has a populated (nonempty)
`_children` array, i.e. no collapse is in effect anywhere in it. -/
def noHiddenBelow : TreeNode → Bool
  | .mk _ _ _ ch hd => (hd.getD []).isEmpty && noHiddenBelowO ch
termination_by t => sizeOf t
decreasing_by all_goals (simp_wf; try omega)

def noHiddenBelowO : Option (List TreeNode) → Bool
  | none => true
  | some l => noHiddenBelowL l
termination_by o => sizeOf o
decreasing_by all_goals (simp_wf; try omega)

def noHiddenBelowL : List TreeNode → Bool
  | [] => true
  | c :: cs => noHiddenBelow c && noHiddenBelowL cs
termination_by l => sizeOf l
decreasing_by all_goals (simp_wf; try omega)

end

/-! ## Box collision force

`boxCollide(padding)` iterates over all index pairs `i < j` of the
captured simulation node array, looks both nodes' measured boxes up in
the `measured` map (fed from `document.getElementById`; `none` models
an element that cannot be located), and separates overlapping boxes
along the axis of smaller overlap.  Positions are rationals standing
for the IEEE doubles of the source. -/

structure Box where
  w : ℚ
  h : ℚ
deriving DecidableEq, Repr

structure SimNode where
  id : String
  x : ℚ
  y : ℚ
deriving DecidableEq, Repr

/-- Embeds `Math.sign`. -/
def mathSign (q : ℚ) : ℚ :=
  if 0 < q then 1 else if q < 0 then -1 else 0

/-- Embeds the body of the pair loop of `force(alpha)` inside
`boxCollide(padding)` for one pair `(a, b)`:
zero center deltas are replaced by `0.001`, the minimum separation per
axis is the half-sum of the box extents plus the padding, and when
both axes overlap the pair is pushed apart symmetrically along the
axis of smaller overlap by `overlap * sign(delta) * alpha / 2` each;
otherwise (including when either box is unmeasured, `!A || !B`) the
pair is left unchanged. -/
def pairStep (padding alpha : ℚ) (measured : String → Option Box)
    (a b : SimNode) : SimNode × SimNode :=
  match measured a.id, measured b.id with
  | some A, some B =>
      let dx := if b.x - a.x = 0 then 1/1000 else b.x - a.x
      let dy := if b.y - a.y = 0 then 1/1000 else b.y - a.y
      let minX := (A.w + B.w) / 2 + padding
      let minY := (A.h + B.h) / 2 + padding
      let overlapX := minX - |dx|
      let overlapY := minY - |dy|
      if 0 < overlapX ∧ 0 < overlapY then
        if overlapX < overlapY then
          let delta := overlapX * mathSign dx * alpha
          ({ a with x := a.x - delta / 2 }, { b with x := b.x + delta / 2 })
        else
          let delta := overlapY * mathSign dy * alpha
          ({ a with y := a.y - delta / 2 }, { b with y := b.y + delta / 2 })
      else (a, b)
  | _, _ => (a, b)

/-- Index pairs `(i, j)` with `i < j < n`, in the order of the nested
`for` loops of `force(alpha)`. -/
def pairIndices (n : Nat) : List (Nat × Nat) :=
  (List.range n).flatMap fun i =>
    ((List.range n).filter fun j => i < j).map fun j => (i, j)

/-- Applies `pairStep` to the nodes at one index pair of the array. -/
def applyPair (padding alpha : ℚ) (measured : String → Option Box)
    (l : List SimNode) (ij : Nat × Nat) : List SimNode :=
  match l[ij.1]?, l[ij.2]? with
  | some a, some b =>
      let r := pairStep padding alpha measured a b
      (l.set ij.1 r.1).set ij.2 r.2
  | _, _ => l

/-- Embeds one invocation of `force(alpha)`: every index pair is
processed in loop order, each step seeing the positions produced by
the previous steps. -/
def boxCollideForce (padding alpha : ℚ) (measured : String → Option Box)
    (l : List SimNode) : List SimNode :=
  (pairIndices l.length).foldl (applyPair padding alpha measured) l

/-! ## Configuration resolution

`mindgen` builds `opts` by spreading the caller's `options` over the
defaults.  An absent option is `none`; a present one is `some v`.
Line 44 of the source then selects the container with
`d3.select(options.container)` — reading the raw `options`, not the
resolved `opts`. -/

structure MindgenOptions where
  container : Option String := none
  margin : Option ℚ := none
  linkDistance : Option ℚ := none
  linkStrength : Option ℚ := none
  charge : Option ℚ := none
  centerStrength : Option ℚ := none
  xStrength : Option ℚ := none
  yStrength : Option ℚ := none
  alphaDecay : Option ℚ := none
  velocityDecay : Option ℚ := none
  boundsPadding : Option ℚ := none

structure ResolvedOptions where
  container : String
  margin : ℚ
  linkDistance : ℚ
  linkStrength : ℚ
  charge : ℚ
  centerStrength : ℚ
  xStrength : ℚ
  yStrength : ℚ
  alphaDecay : ℚ
  velocityDecay : ℚ
  boundsPadding : ℚ

/-- Embeds the `opts` object: `{ container: "body", margin: 40, ...,
...options }`.  Spreading `options` keeps a default exactly when the
corresponding key is absent. -/
def resolveOpts (o : MindgenOptions) : ResolvedOptions where
  container := o.container.getD "body"
  margin := o.margin.getD 40
  linkDistance := o.linkDistance.getD 120
  linkStrength := o.linkStrength.getD 0.2
  charge := o.charge.getD (-500)
  centerStrength := o.centerStrength.getD 0.1
  xStrength := o.xStrength.getD 0.01
  yStrength := o.yStrength.getD 0.01
  alphaDecay := o.alphaDecay.getD 0.02
  velocityDecay := o.velocityDecay.getD 0.4
  boundsPadding := o.boundsPadding.getD 10

/-- Embeds the argument of `d3.select` on line 44 of the source:
the raw `options.container`, not the resolved `opts.container`. -/
def containerSelectArg (o : MindgenOptions) : Option String :=
  o.container

/-! ## Background double-click handler

The container `dblclick` handler returns early when the event target
lies inside a node element; otherwise it clears `pinned`, `fx` and
`fy` on every simulation node and restarts the simulation with alpha
`0.4`. -/

structure DragNode where
  id : String
  x : ℚ
  y : ℚ
  pinned : Bool
  fx : Option ℚ
  fy : Option ℚ
deriving DecidableEq, Repr

/-- Embeds the loop body `n.data.pinned = false; n.fx = null; n.fy = null;`. -/
def clearPin (n : DragNode) : DragNode :=
  { n with pinned := false, fx := none, fy := none }

/-- Embeds the container `dblclick` handler: when the target is a node
the handler returns without touching anything (`none` injected
energy); otherwise all nodes are unpinned and alpha `0.4` is
injected. -/
def containerDblclick (targetIsNode : Bool) (ns : List DragNode) :
    List DragNode × Option ℚ :=
  if targetIsNode then (ns, none) else (ns.map clearPin, some 0.4)


/-! ### Unfolding lemmas for the mutual definitions -/

theorem visiblesL_eq (l : List TreeNode) : visiblesL l = l.flatMap visibles := by
  induction l with
  | nil => simp [visiblesL]
  | cons c cs ih => simp [visiblesL, ih]

theorem visibles_unfold (t : TreeNode) :
    visibles t = t :: (childrenList t).flatMap visibles := by
  cases t with
  | mk i s p ch hd =>
      cases ch <;>
        simp [visibles, visiblesO, visiblesL_eq, childrenList, TreeNode.children]

theorem hlinksL_eq (l : List TreeNode) : hlinksL l = l.flatMap hlinks := by
  induction l with
  | nil => simp [hlinksL]
  | cons c cs ih => simp [hlinksL, ih]

theorem hlinks_unfold (t : TreeNode) :
    hlinks t = (childrenList t).map (fun c => (t, c)) ++ (childrenList t).flatMap hlinks := by
  cases t with
  | mk i s p ch hd =>
      cases ch <;>
        simp [hlinks, hlinksO, hlinksL_eq, childrenList, TreeNode.children]

theorem invOkL_eq (l : List TreeNode) : invOkL l = l.all invOk := by
  induction l with
  | nil => simp [invOkL]
  | cons c cs ih => simp [invOkL, ih]

theorem invOk_unfold (t : TreeNode) :
    invOk t = (!(t.children.isSome && t.hiddenChildren.isSome)
      && (childrenList t).all invOk && (hiddenList t).all invOk) := by
  cases t with
  | mk i s p ch hd =>
      cases ch <;> cases hd <;>
        simp [invOk, invOkO, invOkL_eq, childrenList, hiddenList,
          TreeNode.children, TreeNode.hiddenChildren]

theorem idsOfL_eq (l : List TreeNode) : idsOfL l = l.flatMap idsOf := by
  induction l with
  | nil => simp [idsOfL]
  | cons c cs ih => simp [idsOfL, ih]

theorem idsOf_unfold (t : TreeNode) :
    idsOf t = t.id :: ((childrenList t).flatMap idsOf ++ (hiddenList t).flatMap idsOf) := by
  cases t with
  | mk i s p ch hd =>
      cases ch <;> cases hd <;>
        simp [idsOf, idsOfO, idsOfL_eq, childrenList, hiddenList,
          TreeNode.id, TreeNode.children, TreeNode.hiddenChildren]

theorem noHiddenBelowL_eq (l : List TreeNode) :
    noHiddenBelowL l = l.all noHiddenBelow := by
  induction l with
  | nil => simp [noHiddenBelowL]
  | cons c cs ih => simp [noHiddenBelowL, ih]

theorem noHiddenBelow_unfold (t : TreeNode) :
    noHiddenBelow t = ((hiddenList t).isEmpty && (childrenList t).all noHiddenBelow) := by
  cases t with
  | mk i s p ch hd =>
      cases ch <;>
        simp [noHiddenBelow, noHiddenBelowO, noHiddenBelowL_eq, childrenList,
          hiddenList, TreeNode.children, TreeNode.hiddenChildren]

/-! ### Induction infrastructure -/

theorem sizeOf_lt_of_mem_childrenList {c t : TreeNode} (h : c ∈ childrenList t) :
    sizeOf c < sizeOf t := by
  cases t with
  | mk i s p ch hd =>
      cases ch with
      | none => simp [childrenList, TreeNode.children, Option.getD] at h
      | some cs =>
          simp only [childrenList, TreeNode.children, Option.getD] at h
          have := List.sizeOf_lt_of_mem h
          simp only [TreeNode.mk.sizeOf_spec, Option.some.sizeOf_spec]
          omega

theorem sizeOf_lt_of_mem_hiddenList {c t : TreeNode} (h : c ∈ hiddenList t) :
    sizeOf c < sizeOf t := by
  cases t with
  | mk i s p ch hd =>
      cases hd with
      | none => simp [hiddenList, TreeNode.hiddenChildren, Option.getD] at h
      | some cs =>
          simp only [hiddenList, TreeNode.hiddenChildren, Option.getD] at h
          have := List.sizeOf_lt_of_mem h
          simp only [TreeNode.mk.sizeOf_spec, Option.some.sizeOf_spec]
          omega

/-- Strong induction on the size of a tree node. -/
theorem tree_strong_ind {P : TreeNode → Prop}
    (step : ∀ t, (∀ c, sizeOf c < sizeOf t → P c) → P t) : ∀ t, P t := by
  have H : ∀ n (t : TreeNode), sizeOf t ≤ n → P t := by
    intro n
    induction n with
    | zero =>
        intro t ht
        apply step
        intro c hc
        omega
    | succ n ih =>
        intro t ht
        apply step
        intro c hc
        exact ih c (by omega)
  exact fun t => H (sizeOf t) t le_rfl

/-! ### Visibility lemmas -/

theorem self_mem_visibles (t : TreeNode) : t ∈ visibles t := by
  rw [visibles_unfold]; exact List.mem_cons_self t _

theorem mem_visibles_of_mem_child {t c x : TreeNode}
    (hc : c ∈ childrenList t) (hx : x ∈ visibles c) : x ∈ visibles t := by
  rw [visibles_unfold]
  exact List.mem_cons_of_mem _ (List.mem_flatMap.mpr ⟨c, hc, hx⟩)

theorem visibles_subset {t : TreeNode} :
    ∀ {p : TreeNode}, p ∈ visibles t → ∀ {x : TreeNode}, x ∈ visibles p → x ∈ visibles t := by
  induction t using tree_strong_ind with
  | step t IH =>
      intro p hp x hx
      rw [visibles_unfold] at hp
      rcases List.mem_cons.mp hp with h | h
      · subst h; exact hx
      · rcases List.mem_flatMap.mp h with ⟨c, hc, hpc⟩
        exact mem_visibles_of_mem_child hc
          (IH c (sizeOf_lt_of_mem_childrenList hc) hpc hx)

theorem child_mem_visibles {p c : TreeNode} (h : c ∈ childrenList p) :
    c ∈ visibles p :=
  mem_visibles_of_mem_child h (self_mem_visibles c)

theorem mem_visibles_elim {t : TreeNode} :
    ∀ {n : TreeNode}, n ∈ visibles t →
      n = t ∨ ∃ p, p ∈ visibles t ∧ n ∈ childrenList p := by
  induction t using tree_strong_ind with
  | step t IH =>
      intro n hn
      rw [visibles_unfold] at hn
      rcases List.mem_cons.mp hn with h | h
      · exact Or.inl h
      · rcases List.mem_flatMap.mp h with ⟨c, hc, hnc⟩
        rcases IH c (sizeOf_lt_of_mem_childrenList hc) hnc with h' | ⟨p, hp, hnp⟩
        · subst h'
          exact Or.inr ⟨t, self_mem_visibles t, hc⟩
        · exact Or.inr ⟨p, visibles_subset (child_mem_visibles hc) hp, hnp⟩

theorem isCollapsed_false_of_child {p c : TreeNode} (h : c ∈ childrenList p) :
    isCollapsed p = false := by
  cases p with
  | mk i s pn ch hd =>
      cases ch with
      | none => simp [childrenList, TreeNode.children, Option.getD] at h
      | some cs => simp [isCollapsed, TreeNode.children]

theorem invOk_of_mem_childrenList {t c : TreeNode} (hinv : invOk t = true)
    (hc : c ∈ childrenList t) : invOk c = true := by
  rw [invOk_unfold] at hinv
  simp only [Bool.and_eq_true, List.all_eq_true] at hinv
  exact hinv.1.2 c hc

theorem invOk_of_mem_visibles {t : TreeNode} (hinv : invOk t = true) :
    ∀ {p : TreeNode}, p ∈ visibles t → invOk p = true := by
  induction t using tree_strong_ind with
  | step t IH =>
      intro p hp
      rw [visibles_unfold] at hp
      rcases List.mem_cons.mp hp with h | h
      · subst h; exact hinv
      · rcases List.mem_flatMap.mp h with ⟨c, hc, hpc⟩
        exact IH c (sizeOf_lt_of_mem_childrenList hc)
          (invOk_of_mem_childrenList hinv hc) hpc

theorem no_hidden_child_of_not_collapsed {p n : TreeNode}
    (hinv : invOk p = true) (hcol : isCollapsed p = false)
    (hn : n ∈ hiddenList p) : False := by
  cases p with
  | mk i s pn ch hd =>
      cases hd with
      | none => simp [hiddenList, TreeNode.hiddenChildren, Option.getD] at hn
      | some l =>
          have hne : ¬l.isEmpty := by
            intro he
            rw [List.isEmpty_iff] at he
            subst he
            simp [hiddenList, TreeNode.hiddenChildren, Option.getD] at hn
          cases ch with
          | none =>
              simp [isCollapsed, TreeNode.children, TreeNode.hiddenChildren] at hcol
              exact hne (by simp [hcol])
          | some cs =>
              rw [invOk_unfold] at hinv
              simp [TreeNode.children, TreeNode.hiddenChildren] at hinv

/-! ### Link lemmas -/

theorem hlinks_subset {t : TreeNode} :
    ∀ {p : TreeNode}, p ∈ visibles t → ∀ {e : TreeNode × TreeNode},
      e ∈ hlinks p → e ∈ hlinks t := by
  induction t using tree_strong_ind with
  | step t IH =>
      intro p hp e he
      rw [visibles_unfold] at hp
      rcases List.mem_cons.mp hp with h | h
      · subst h; exact he
      · rcases List.mem_flatMap.mp h with ⟨c, hc, hpc⟩
        have : e ∈ hlinks c := IH c (sizeOf_lt_of_mem_childrenList hc) hpc he
        rw [hlinks_unfold]
        exact List.mem_append_right _ (List.mem_flatMap.mpr ⟨c, hc, this⟩)

theorem mem_hlinks_iff {t : TreeNode} :
    ∀ {p c : TreeNode}, (p, c) ∈ hlinks t ↔ p ∈ visibles t ∧ c ∈ childrenList p := by
  induction t using tree_strong_ind with
  | step t IH =>
      intro p c
      constructor
      · intro h
        rw [hlinks_unfold] at h
        rcases List.mem_append.mp h with h | h
        · rcases List.mem_map.mp h with ⟨c', hc', hpc⟩
          have h1 : p = t := congrArg Prod.fst hpc.symm
          have h2 : c = c' := congrArg Prod.snd hpc.symm
          subst h1; subst h2
          exact ⟨self_mem_visibles _, hc'⟩
        · rcases List.mem_flatMap.mp h with ⟨c', hc', hlc⟩
          have := (IH c' (sizeOf_lt_of_mem_childrenList hc')).mp hlc
          exact ⟨visibles_subset (child_mem_visibles hc') this.1, this.2⟩
      · rintro ⟨hp, hc⟩
        have hself : (p, c) ∈ hlinks p := by
          rw [hlinks_unfold]
          exact List.mem_append_left _ (List.mem_map.mpr ⟨c, hc, rfl⟩)
        exact hlinks_subset hp hself

theorem flatMap_length_sum {α β γ : Type _} (f : α → List β) (g : α → List γ)
    (l : List α) (h : ∀ c ∈ l, (f c).length = (g c).length + 1) :
    (l.flatMap f).length = (l.flatMap g).length + l.length := by
  induction l with
  | nil => simp
  | cons c cs ih =>
      simp only [List.flatMap_cons, List.length_append, List.length_cons]
      rw [h c (List.mem_cons_self c cs), ih (fun x hx => h x (List.mem_cons_of_mem c hx))]
      omega

theorem visibles_length (t : TreeNode) :
    (visibles t).length = (hlinks t).length + 1 := by
  induction t using tree_strong_ind with
  | step t IH =>
      rw [visibles_unfold, hlinks_unfold]
      simp only [List.length_cons, List.length_append, List.length_map]
      have := flatMap_length_sum visibles hlinks (childrenList t)
        (fun c hc => IH c (sizeOf_lt_of_mem_childrenList hc))
      omega

/-! ### Collapse/expand helper lemmas -/

theorem collapse_children (t : TreeNode) : (collapse t).children = none ∨ collapse t = t := by
  cases t with
  | mk i s p ch hd => cases ch <;> simp [collapse, TreeNode.children]

theorem collapse_children_none (t : TreeNode) : (collapse t).children = none := by
  cases t with
  | mk i s p ch hd => cases ch <;> simp [collapse, TreeNode.children]

theorem collapse_eq_self_of_children_none {t : TreeNode} (h : t.children = none) :
    collapse t = t := by
  cases t with
  | mk i s p ch hd =>
      simp only [TreeNode.children] at h
      subst h
      rfl

theorem collapse_id (t : TreeNode) : (collapse t).id = t.id := by
  cases t with
  | mk i s p ch hd => cases ch <;> rfl

theorem collapse_moves_children {t : TreeNode} {cs : List TreeNode}
    (h : t.children = some cs) :
    (collapse t).children = none ∧ (collapse t).hiddenChildren = some cs := by
  cases t with
  | mk i s p ch hd =>
      simp only [TreeNode.children] at h
      subst h
      simp [collapse, TreeNode.children, TreeNode.hiddenChildren]

theorem visibles_of_children_none {t : TreeNode} (h : t.children = none) :
    visibles t = [t] := by
  cases t with
  | mk i s p ch hd =>
      simp only [TreeNode.children] at h
      subst h
      simp [visibles, visiblesO]

theorem flatMap_visibles_map_collapse (hs : List TreeNode) :
    (hs.map collapse).flatMap visibles = hs.map collapse := by
  induction hs with
  | nil => simp
  | cons c cs ih =>
      simp only [List.map_cons, List.flatMap_cons, ih,
        visibles_of_children_none (collapse_children_none c)]
      rfl

theorem invOk_collapse {t : TreeNode} (h : invOk t = true) :
    invOk (collapse t) = true := by
  cases t with
  | mk i s p ch hd =>
      cases ch with
      | none => simpa [collapse] using h
      | some cs =>
          simp only [invOk, Option.isSome_some, Bool.true_and, Bool.and_eq_true,
            Bool.not_eq_true'] at h
          cases hd with
          | none => simpa [collapse, invOk, invOkO] using h
          | some _ => simp at h

theorem idsOf_collapse {t : TreeNode} (h : invOk t = true) :
    idsOf (collapse t) = idsOf t := by
  cases t with
  | mk i s p ch hd =>
      cases ch with
      | none => simp [collapse]
      | some cs =>
          simp only [invOk, Option.isSome_some, Bool.true_and, Bool.and_eq_true,
            Bool.not_eq_true'] at h
          cases hd with
          | none => simp [collapse, idsOf, idsOfO]
          | some _ => simp at h

theorem flatMap_idsOf_map_collapse (hs : List TreeNode)
    (h : ∀ c ∈ hs, invOk c = true) :
    (hs.map collapse).flatMap idsOf = hs.flatMap idsOf := by
  induction hs with
  | nil => rfl
  | cons c cs ih =>
      simp only [List.map_cons, List.flatMap_cons]
      rw [idsOf_collapse (h c (List.mem_cons_self c cs)),
        ih fun x hx => h x (List.mem_cons_of_mem c hx)]

/-! ### Pair-step helper lemma -/

theorem pairStep_eq_of_measured (padding alpha : ℚ) (measured : String → Option Box)
    (a b : SimNode) (A B : Box)
    (hA : measured a.id = some A) (hB : measured b.id = some B) :
    pairStep padding alpha measured a b =
      (let dx := if b.x - a.x = 0 then 1/1000 else b.x - a.x
       let dy := if b.y - a.y = 0 then 1/1000 else b.y - a.y
       let minX := (A.w + B.w) / 2 + padding
       let minY := (A.h + B.h) / 2 + padding
       let overlapX := minX - |dx|
       let overlapY := minY - |dy|
       if 0 < overlapX ∧ 0 < overlapY then
         if overlapX < overlapY then
           let delta := overlapX * mathSign dx * alpha
           ({ a with x := a.x - delta / 2 }, { b with x := b.x + delta / 2 })
         else
           let delta := overlapY * mathSign dy * alpha
           ({ a with y := a.y - delta / 2 }, { b with y := b.y + delta / 2 })
       else (a, b)) := by
  unfold pairStep
  rw [hA, hB]

theorem expandOne_visibles (i s : String) (p : Bool) (ch : Option (List TreeNode))
    (hs : List TreeNode) :
    visibles (expandOne (TreeNode.mk i s p ch (some hs)))
      = expandOne (TreeNode.mk i s p ch (some hs)) :: hs.map collapse := by
  show visibles (TreeNode.mk i s p (some (hs.map collapse)) none) = _
  rw [visibles_unfold]
  simp only [childrenList, TreeNode.children, Option.getD]
  rw [flatMap_visibles_map_collapse]
  rfl

/-! ## Claim theorems -/

/-- C1: for every tree satisfying the one-of-children/hiddenChildren
invariant, the flattened visible node set contains a node iff it is
the root or some visible, non-collapsed parent has it among its
(visible or hidden) child arrays; nodes stored under `_children` are
never traversed; links are exactly the parent-child edges among
visible nodes, one per edge. -/
theorem c1_flatten_visible_iff (T : TreeNode) (hinv : invOk T = true) :
    (∀ n, n ∈ visibles T ↔
      (n = T ∨ ∃ p, p ∈ visibles T ∧ isCollapsed p = false ∧
        (n ∈ childrenList p ∨ n ∈ hiddenList p)))
  ∧ (∀ p c, (p, c) ∈ hlinks T ↔ (p ∈ visibles T ∧ c ∈ childrenList p))
  ∧ (hlinks T).length + 1 = (visibles T).length := by
  refine ⟨?_, ?_, (visibles_length T).symm⟩
  · intro n
    constructor
    · intro hn
      rcases mem_visibles_elim hn with h | ⟨p, hp, hnp⟩
      · exact Or.inl h
      · exact Or.inr ⟨p, hp, isCollapsed_false_of_child hnp, Or.inl hnp⟩
    · rintro (rfl | ⟨p, hp, hcol, hchild | hhid⟩)
      · exact self_mem_visibles _
      · exact visibles_subset hp (child_mem_visibles hchild)
      · exact (no_hidden_child_of_not_collapsed
          (invOk_of_mem_visibles hinv hp) hcol hhid).elim
  · intro p c
    exact mem_hlinks_iff

/-- C1 witness: root with two leaf children — the invariant holds and
the characterisation applies. -/
theorem c1_flatten_visible_iff_witness :
    invOk (TreeNode.mk "root" "X" false
      (some [TreeNode.mk "a" "" false none none,
             TreeNode.mk "b" "" false none none]) none) = true
  ∧ ((∀ n, n ∈ visibles (TreeNode.mk "root" "X" false
        (some [TreeNode.mk "a" "" false none none,
               TreeNode.mk "b" "" false none none]) none) ↔
      (n = TreeNode.mk "root" "X" false
        (some [TreeNode.mk "a" "" false none none,
               TreeNode.mk "b" "" false none none]) none ∨
       ∃ p, p ∈ visibles (TreeNode.mk "root" "X" false
          (some [TreeNode.mk "a" "" false none none,
                 TreeNode.mk "b" "" false none none]) none) ∧
         isCollapsed p = false ∧ (n ∈ childrenList p ∨ n ∈ hiddenList p)))
  ∧ (∀ p c, (p, c) ∈ hlinks (TreeNode.mk "root" "X" false
        (some [TreeNode.mk "a" "" false none none,
               TreeNode.mk "b" "" false none none]) none) ↔
      (p ∈ visibles (TreeNode.mk "root" "X" false
          (some [TreeNode.mk "a" "" false none none,
                 TreeNode.mk "b" "" false none none]) none) ∧
       c ∈ childrenList p))
  ∧ (hlinks (TreeNode.mk "root" "X" false
        (some [TreeNode.mk "a" "" false none none,
               TreeNode.mk "b" "" false none none]) none)).length + 1
      = (visibles (TreeNode.mk "root" "X" false
        (some [TreeNode.mk "a" "" false none none,
               TreeNode.mk "b" "" false none none]) none)).length) := by
  have hinv : invOk (TreeNode.mk "root" "X" false
      (some [TreeNode.mk "a" "" false none none,
             TreeNode.mk "b" "" false none none]) none) = true := by
    simp [invOk, invOkO, invOkL]
  exact ⟨hinv, c1_flatten_visible_iff _ hinv⟩

/-- C2: when a node has `_children`, `expandOne` moves them to
`children` and re-collapses every revealed child that itself had a
`children` array, so after the operation every revealed child has no
`children` of its own and exactly one additional level is visible; a
node without `_children` is left unchanged. -/
theorem c2_expandOne_one_level (d : TreeNode) :
    (d.hiddenChildren = none → expandOne d = d)
  ∧ (∀ hs, d.hiddenChildren = some hs →
      (expandOne d).children = some (hs.map collapse)
    ∧ (expandOne d).hiddenChildren = none
    ∧ (∀ c ∈ hs, ∀ cs, c.children = some cs →
        (collapse c).children = none ∧ (collapse c).hiddenChildren = some cs)
    ∧ (∀ c ∈ hs, (collapse c).children = none)
    ∧ visibles (expandOne d) = expandOne d :: hs.map collapse) := by
  cases d with
  | mk i s p ch hd =>
      cases hd with
      | none =>
          refine ⟨fun _ => rfl, ?_⟩
          intro hs h
          simp [TreeNode.hiddenChildren] at h
      | some hs0 =>
          constructor
          · intro h
            simp [TreeNode.hiddenChildren] at h
          · intro hs h
            have h' : some hs0 = some hs := h
            have hh : hs0 = hs := Option.some.inj h'
            subst hh
            exact ⟨rfl, rfl,
              fun c _ cs hcs => collapse_moves_children hcs,
              fun c _ => collapse_children_none c,
              expandOne_visibles i s p ch hs0⟩

/-- C2 witness: a collapsed node whose hidden child itself has a
child, and a leaf node for the no-op branch. -/
theorem c2_expandOne_one_level_witness :
    (TreeNode.mk "n" "" false none
        (some [TreeNode.mk "c1" "" false
          (some [TreeNode.mk "g" "" false none none]) none])).hiddenChildren
      = some [TreeNode.mk "c1" "" false
          (some [TreeNode.mk "g" "" false none none]) none]
  ∧ (expandOne (TreeNode.mk "n" "" false none
        (some [TreeNode.mk "c1" "" false
          (some [TreeNode.mk "g" "" false none none]) none]))).children
      = some ([TreeNode.mk "c1" "" false
          (some [TreeNode.mk "g" "" false none none]) none].map collapse)
  ∧ (∀ c ∈ [TreeNode.mk "c1" "" false
          (some [TreeNode.mk "g" "" false none none]) none],
        (collapse c).children = none)
  ∧ (TreeNode.mk "leaf" "" false none none).hiddenChildren = none
  ∧ expandOne (TreeNode.mk "leaf" "" false none none)
      = TreeNode.mk "leaf" "" false none none := by
  refine ⟨rfl, ?_, ?_, rfl, ?_⟩
  · exact ((c2_expandOne_one_level (TreeNode.mk "n" "" false none
        (some [TreeNode.mk "c1" "" false
          (some [TreeNode.mk "g" "" false none none]) none]))).2
      [TreeNode.mk "c1" "" false
          (some [TreeNode.mk "g" "" false none none]) none] rfl).1
  · exact ((c2_expandOne_one_level (TreeNode.mk "n" "" false none
        (some [TreeNode.mk "c1" "" false
          (some [TreeNode.mk "g" "" false none none]) none]))).2
      [TreeNode.mk "c1" "" false
          (some [TreeNode.mk "g" "" false none none]) none] rfl).2.2.2.1
  · exact (c2_expandOne_one_level (TreeNode.mk "leaf" "" false none none)).1 rfl

/-- C3 counterexample: for a node `a` with child `b` that has its own
child `c`, and no `_children` populated anywhere, the round trip
`expandOne(collapse(a))` does not restore `a.children` to its
pre-collapse value: `expandOne` re-collapses `b`, moving `b`'s
children to `b._children`. -/
theorem c3_roundtrip_counterexample :
    noHiddenBelow (TreeNode.mk "a" "" false
      (some [TreeNode.mk "b" "" false
        (some [TreeNode.mk "c" "" false none none]) none]) none) = true
  ∧ (expandOne (collapse (TreeNode.mk "a" "" false
      (some [TreeNode.mk "b" "" false
        (some [TreeNode.mk "c" "" false none none]) none]) none))).children
    ≠ (TreeNode.mk "a" "" false
      (some [TreeNode.mk "b" "" false
        (some [TreeNode.mk "c" "" false none none]) none]) none).children := by
  constructor
  · simp [noHiddenBelow, noHiddenBelowO, noHiddenBelowL, hiddenList,
      TreeNode.hiddenChildren]
  · intro h
    have h' : some [TreeNode.mk "b" "" false none
          (some [TreeNode.mk "c" "" false none none])]
        = some [TreeNode.mk "b" "" false
          (some [TreeNode.mk "c" "" false none none]) none] := h
    simp at h'

/-- C3 (amended): `expandOne(collapse(n))` yields a `children` list
that is the original one with `collapse` applied to each element —
the same children in the same order up to each child's own `children`
moving to `hiddenChildren` (ids and order are restored exactly), and
the restoration is exact when no direct child of `n` has a `children`
array of its own. -/
theorem c3_roundtrip_amended (n : TreeNode) (cs : List TreeNode)
    (h : n.children = some cs) :
    (expandOne (collapse n)).children = some (cs.map collapse)
  ∧ (cs.map collapse).map TreeNode.id = cs.map TreeNode.id
  ∧ ((∀ c ∈ cs, c.children = none) → (expandOne (collapse n)).children = some cs) := by
  cases n with
  | mk i s p ch hd =>
      have h' : ch = some cs := h
      subst h'
      refine ⟨rfl, ?_, ?_⟩
      · rw [List.map_map]
        exact List.map_congr_left fun c _ => collapse_id c
      · intro hleaf
        show some (cs.map collapse) = some cs
        congr 1
        have := List.map_congr_left fun c hc =>
          collapse_eq_self_of_children_none (hleaf c hc)
        simpa using this

/-- C3 witness: a node whose only child is a leaf — the round trip is
exact there. -/
theorem c3_roundtrip_amended_witness :
    (TreeNode.mk "r" "" false (some [TreeNode.mk "x" "" false none none]) none).children
      = some [TreeNode.mk "x" "" false none none]
  ∧ (expandOne (collapse (TreeNode.mk "r" "" false
      (some [TreeNode.mk "x" "" false none none]) none))).children
      = some [TreeNode.mk "x" "" false none none] := by
  refine ⟨rfl, ?_⟩
  exact (c3_roundtrip_amended
    (TreeNode.mk "r" "" false (some [TreeNode.mk "x" "" false none none]) none)
    [TreeNode.mk "x" "" false none none] rfl).2.2
    (by intro c hc; simp at hc; subst hc; rfl)

/-- C4: on any tree satisfying the at-most-one-of
`children`/`hiddenChildren` invariant, both `collapse` and
`expandOne` preserve the invariant everywhere; `collapse` on an
already-collapsed node (no `children`) is a no-op; and neither
operation destroys a subtree — the multiset of stored ids is
preserved exactly. -/
theorem c4_ops_preserve_invariant (d : TreeNode) (hinv : invOk d = true) :
    invOk (collapse d) = true
  ∧ invOk (expandOne d) = true
  ∧ (d.children = none → collapse d = d)
  ∧ idsOf (collapse d) = idsOf d
  ∧ idsOf (expandOne d) = idsOf d := by
  refine ⟨invOk_collapse hinv, ?_, ?_, idsOf_collapse hinv, ?_⟩
  · cases d with
    | mk i s p ch hd =>
        cases hd with
        | none => simpa [expandOne] using hinv
        | some hs =>
            cases ch with
            | some _ =>
                rw [invOk_unfold] at hinv
                simp [TreeNode.children, TreeNode.hiddenChildren] at hinv
            | none =>
                rw [invOk_unfold] at hinv
                simp only [TreeNode.children, TreeNode.hiddenChildren,
                  Option.isSome_none, Option.isSome_some, Bool.false_and,
                  Bool.not_false, Bool.true_and, Bool.and_eq_true,
                  List.all_eq_true, childrenList, hiddenList, Option.getD] at hinv
                show invOk (TreeNode.mk i s p (some (hs.map collapse)) none) = true
                rw [invOk_unfold]
                simp only [TreeNode.children, TreeNode.hiddenChildren,
                  Option.isSome_none, Option.isSome_some, Bool.and_false,
                  Bool.not_false, Bool.true_and, Bool.and_eq_true,
                  List.all_eq_true, childrenList, hiddenList, Option.getD]
                constructor
                · intro c hc
                  rcases List.mem_map.mp hc with ⟨c0, hc0, rfl⟩
                  exact invOk_collapse (hinv.2 c0 hc0)
                · intro c hc
                  simp at hc
  · intro h
    exact collapse_eq_self_of_children_none h
  · cases d with
    | mk i s p ch hd =>
        cases hd with
        | none => simp [expandOne]
        | some hs =>
            cases ch with
            | some _ =>
                rw [invOk_unfold] at hinv
                simp [TreeNode.children, TreeNode.hiddenChildren] at hinv
            | none =>
                rw [invOk_unfold] at hinv
                simp only [TreeNode.children, TreeNode.hiddenChildren,
                  Option.isSome_none, Option.isSome_some, Bool.false_and,
                  Bool.not_false, Bool.true_and, Bool.and_eq_true,
                  List.all_eq_true, childrenList, hiddenList, Option.getD] at hinv
                show idsOf (TreeNode.mk i s p (some (hs.map collapse)) none)
                  = idsOf (TreeNode.mk i s p none (some hs))
                rw [idsOf_unfold, idsOf_unfold]
                simp only [TreeNode.id, childrenList, hiddenList,
                  TreeNode.children, TreeNode.hiddenChildren, Option.getD,
                  List.flatMap_nil, List.append_nil, List.nil_append]
                exact congrArg (List.cons i) (flatMap_idsOf_map_collapse hs hinv.2)

/-- C4 witness: a node with one expanded child subtree satisfying the
invariant. -/
theorem c4_ops_preserve_invariant_witness :
    invOk (TreeNode.mk "r" "" false
      (some [TreeNode.mk "x" "" false none none]) none) = true
  ∧ invOk (collapse (TreeNode.mk "r" "" false
      (some [TreeNode.mk "x" "" false none none]) none)) = true
  ∧ invOk (expandOne (TreeNode.mk "r" "" false
      (some [TreeNode.mk "x" "" false none none]) none)) = true
  ∧ idsOf (collapse (TreeNode.mk "r" "" false
      (some [TreeNode.mk "x" "" false none none]) none))
      = idsOf (TreeNode.mk "r" "" false
        (some [TreeNode.mk "x" "" false none none]) none)
  ∧ idsOf (expandOne (TreeNode.mk "r" "" false
      (some [TreeNode.mk "x" "" false none none]) none))
      = idsOf (TreeNode.mk "r" "" false
        (some [TreeNode.mk "x" "" false none none]) none) := by
  have hinv : invOk (TreeNode.mk "r" "" false
      (some [TreeNode.mk "x" "" false none none]) none) = true := by
    simp [invOk, invOkO, invOkL]
  obtain ⟨h1, h2, _, h4, h5⟩ := c4_ops_preserve_invariant _ hinv
  exact ⟨hinv, h1, h2, h4, h5⟩

/-- C5: for a pair of measured nodes, one application of the box
collision pair step uses per-axis center deltas (a zero delta is
replaced by the tiny nonzero epsilon 1/1000), per-axis minimum
separations equal to the half-sum of the box extents plus the
padding, and, when both axes show positive overlap, moves the two
nodes apart symmetrically along the axis of smaller overlap, each by
overlap * sign(delta) * alpha / 2; without positive overlap on both
axes the pair is unchanged. -/
theorem c5_boxCollide_pair_formulas (padding alpha : ℚ)
    (measured : String → Option Box) (a b : SimNode) (A B : Box)
    (hA : measured a.id = some A) (hB : measured b.id = some B)
    (dx dy overlapX overlapY : ℚ)
    (hdx : dx = if b.x - a.x = 0 then 1/1000 else b.x - a.x)
    (hdy : dy = if b.y - a.y = 0 then 1/1000 else b.y - a.y)
    (hoX : overlapX = (A.w + B.w) / 2 + padding - |dx|)
    (hoY : overlapY = (A.h + B.h) / 2 + padding - |dy|) :
    (dx ≠ 0 ∧ dy ≠ 0
      ∧ (b.x - a.x = 0 → dx = 1/1000) ∧ (b.x - a.x ≠ 0 → dx = b.x - a.x)
      ∧ (b.y - a.y = 0 → dy = 1/1000) ∧ (b.y - a.y ≠ 0 → dy = b.y - a.y))
  ∧ (0 < overlapX → 0 < overlapY → overlapX < overlapY →
        pairStep padding alpha measured a b
          = ({ a with x := a.x - overlapX * mathSign dx * alpha / 2 },
             { b with x := b.x + overlapX * mathSign dx * alpha / 2 }))
  ∧ (0 < overlapX → 0 < overlapY → ¬overlapX < overlapY →
        pairStep padding alpha measured a b
          = ({ a with y := a.y - overlapY * mathSign dy * alpha / 2 },
             { b with y := b.y + overlapY * mathSign dy * alpha / 2 }))
  ∧ (¬(0 < overlapX ∧ 0 < overlapY) →
        pairStep padding alpha measured a b = (a, b)) := by
  subst hdx hdy hoX hoY
  rw [pairStep_eq_of_measured padding alpha measured a b A B hA hB]
  refine ⟨⟨?_, ?_, ?_, ?_, ?_, ?_⟩, ?_, ?_, ?_⟩
  · split
    · norm_num
    · assumption
  · split
    · norm_num
    · assumption
  · intro h; rw [if_pos h]
  · intro h; rw [if_neg h]
  · intro h; rw [if_pos h]
  · intro h; rw [if_neg h]
  · intro h1 h2 h3
    simp only []
    rw [if_pos ⟨h1, h2⟩, if_pos h3]
  · intro h1 h2 h3
    simp only []
    rw [if_pos ⟨h1, h2⟩, if_neg h3]
  · intro h
    simp only []
    rw [if_neg h]

/-- C5 witness: two 10-by-10 boxes with centers 3 apart horizontally
and aligned vertically — the x overlap (7) is smaller than the
epsilon-based y overlap (9.999), so the pair separates along x. -/
theorem c5_boxCollide_pair_formulas_witness :
    ((fun _ => some (Box.mk 10 10)) : String → Option Box)
        (SimNode.mk "a" 0 0).id = some (Box.mk 10 10)
  ∧ (7 : ℚ) = (10 + 10) / 2 + 0 - |if (3 : ℚ) - 0 = 0 then 1/1000 else 3 - 0|
  ∧ pairStep 0 1 (fun _ => some (Box.mk 10 10)) (SimNode.mk "a" 0 0) (SimNode.mk "b" 3 0)
      = ({ SimNode.mk "a" 0 0 with
            x := 0 - 7 * mathSign (if (3 : ℚ) - 0 = 0 then 1/1000 else 3 - 0) * 1 / 2 },
         { SimNode.mk "b" 3 0 with
            x := 3 + 7 * mathSign (if (3 : ℚ) - 0 = 0 then 1/1000 else 3 - 0) * 1 / 2 }) := by
  refine ⟨rfl, by norm_num, ?_⟩
  exact (c5_boxCollide_pair_formulas 0 1 (fun _ => some (Box.mk 10 10))
      (SimNode.mk "a" 0 0) (SimNode.mk "b" 3 0) (Box.mk 10 10) (Box.mk 10 10)
      rfl rfl
      (if (3 : ℚ) - 0 = 0 then 1/1000 else 3 - 0)
      (if (0 : ℚ) - 0 = 0 then 1/1000 else 0 - 0)
      7 (9999/1000)
      rfl rfl (by norm_num)
      (by rw [if_pos (by norm_num : (0:ℚ) - 0 = 0),
            abs_of_pos (by norm_num : (0:ℚ) < 1/1000)]
          norm_num)).2.1
    (by norm_num) (by norm_num) (by norm_num)

/-- C9: when either node of a pair has no measured box (its element
could not be located), the pair step leaves both nodes unchanged and
is total (no error). -/
theorem c9_unmeasured_pair_skipped (padding alpha : ℚ)
    (measured : String → Option Box) (a b : SimNode)
    (h : measured a.id = none ∨ measured b.id = none) :
    pairStep padding alpha measured a b = (a, b) := by
  cases hA : measured a.id with
  | none =>
      cases hB : measured b.id with
      | none => unfold pairStep; rw [hA, hB]
      | some B => unfold pairStep; rw [hA, hB]
  | some A =>
      cases hB : measured b.id with
      | none => unfold pairStep; rw [hA, hB]
      | some B =>
          rcases h with h | h
          · rw [hA] at h; exact absurd h (by simp)
          · rw [hB] at h; exact absurd h (by simp)

/-- C9 witness: no element can be measured, so a pair at identical
positions is untouched. -/
theorem c9_unmeasured_pair_skipped_witness :
    ((fun _ => none : String → Option Box) (SimNode.mk "a" 1 2).id = none
      ∨ (fun _ => none : String → Option Box) (SimNode.mk "b" 1 2).id = none)
  ∧ pairStep 40 1 (fun _ => none) (SimNode.mk "a" 1 2) (SimNode.mk "b" 1 2)
      = (SimNode.mk "a" 1 2, SimNode.mk "b" 1 2) :=
  ⟨Or.inl rfl,
   c9_unmeasured_pair_skipped 40 1 (fun _ => none)
     (SimNode.mk "a" 1 2) (SimNode.mk "b" 1 2) (Or.inl rfl)⟩

/-- C10: when the two per-axis overlaps are exactly equal (and
positive), the strict comparison overlapX < overlapY fails, so the
pair is resolved along the vertical axis and both x positions are
unchanged. -/
theorem c10_equal_overlaps_resolve_vertically (padding alpha : ℚ)
    (measured : String → Option Box) (a b : SimNode) (A B : Box)
    (hA : measured a.id = some A) (hB : measured b.id = some B)
    (overlapBoth : ℚ)
    (hoX : overlapBoth = (A.w + B.w) / 2 + padding
      - |if b.x - a.x = 0 then 1/1000 else b.x - a.x|)
    (hoY : overlapBoth = (A.h + B.h) / 2 + padding
      - |if b.y - a.y = 0 then 1/1000 else b.y - a.y|)
    (hpos : 0 < overlapBoth) :
    (pairStep padding alpha measured a b).1.x = a.x
  ∧ (pairStep padding alpha measured a b).2.x = b.x
  ∧ (pairStep padding alpha measured a b).1.y
      = a.y - overlapBoth
        * mathSign (if b.y - a.y = 0 then 1/1000 else b.y - a.y) * alpha / 2
  ∧ (pairStep padding alpha measured a b).2.y
      = b.y + overlapBoth
        * mathSign (if b.y - a.y = 0 then 1/1000 else b.y - a.y) * alpha / 2 := by
  rw [pairStep_eq_of_measured padding alpha measured a b A B hA hB]
  simp only []
  rw [if_pos ⟨hoX ▸ hpos, hoY ▸ hpos⟩, if_neg (by rw [← hoX, ← hoY]; exact lt_irrefl _)]
  rw [← hoY]
  exact ⟨rfl, rfl, rfl, rfl⟩

/-- C10 witness: 10-by-10 boxes offset by (3, 3) have equal overlaps
of 7 on both axes; the pair moves only vertically. -/
theorem c10_equal_overlaps_resolve_vertically_witness :
    (7 : ℚ) = (10 + 10) / 2 + 0 - |if (3 : ℚ) - 0 = 0 then 1/1000 else 3 - 0|
  ∧ (pairStep 0 1 (fun _ => some (Box.mk 10 10))
        (SimNode.mk "a" 0 0) (SimNode.mk "b" 3 3)).1.x = 0
  ∧ (pairStep 0 1 (fun _ => some (Box.mk 10 10))
        (SimNode.mk "a" 0 0) (SimNode.mk "b" 3 3)).2.x = 3 := by
  have h := c10_equal_overlaps_resolve_vertically 0 1 (fun _ => some (Box.mk 10 10))
    (SimNode.mk "a" 0 0) (SimNode.mk "b" 3 3) (Box.mk 10 10) (Box.mk 10 10)
    rfl rfl 7 (by norm_num) (by norm_num) (by norm_num)
  exact ⟨by norm_num, h.1, h.2.1⟩

/-- C7: with every option omitted, the resolved `opts` object carries
exactly the documented defaults, including `container = "body"`; but
the argument actually handed to `d3.select` is the raw
`options.container`, which is absent — the resolved body default is
never consulted, so the omitted-container call does not render into
the body. -/
theorem c7_defaults_resolved_but_container_ignored :
    (resolveOpts {}).margin = 40
  ∧ (resolveOpts {}).linkDistance = 120
  ∧ (resolveOpts {}).linkStrength = 0.2
  ∧ (resolveOpts {}).charge = -500
  ∧ (resolveOpts {}).centerStrength = 0.1
  ∧ (resolveOpts {}).xStrength = 0.01
  ∧ (resolveOpts {}).yStrength = 0.01
  ∧ (resolveOpts {}).alphaDecay = 0.02
  ∧ (resolveOpts {}).velocityDecay = 0.4
  ∧ (resolveOpts {}).boundsPadding = 10
  ∧ (resolveOpts {}).container = "body"
  ∧ containerSelectArg {} = none
  ∧ containerSelectArg {} ≠ some ((resolveOpts {}).container) := by
  refine ⟨rfl, rfl, rfl, rfl, rfl, rfl, rfl, rfl, rfl, rfl, rfl, rfl, ?_⟩
  intro h
  exact Option.noConfusion h

/-- C8: a double-click on the background (target not inside a node)
sets pinned to false and removes fx/fy on every node, preserves ids
and positions, and injects alpha 0.4 of simulation energy. -/
theorem c8_background_dblclick_clears_all_pins (ns : List DragNode) :
    (∀ n ∈ (containerDblclick false ns).1,
        n.pinned = false ∧ n.fx = none ∧ n.fy = none)
  ∧ (containerDblclick false ns).1.length = ns.length
  ∧ (containerDblclick false ns).1.map DragNode.id = ns.map DragNode.id
  ∧ (containerDblclick false ns).1.map DragNode.x = ns.map DragNode.x
  ∧ (containerDblclick false ns).1.map DragNode.y = ns.map DragNode.y
  ∧ (containerDblclick false ns).2 = some 0.4
  ∧ (0 : ℚ) < 0.4 := by
  refine ⟨?_, ?_, ?_, ?_, ?_, rfl, by norm_num⟩
  · intro n hn
    simp only [containerDblclick, if_neg (by simp : ¬False), Bool.false_eq_true,
      ite_false] at hn
    rcases List.mem_map.mp hn with ⟨m, _, rfl⟩
    exact ⟨rfl, rfl, rfl⟩
  · simp [containerDblclick]
  · simp only [containerDblclick, Bool.false_eq_true, ite_false, List.map_map]
    exact List.map_congr_left fun n _ => rfl
  · simp only [containerDblclick, Bool.false_eq_true, ite_false, List.map_map]
    exact List.map_congr_left fun n _ => rfl
  · simp only [containerDblclick, Bool.false_eq_true, ite_false, List.map_map]
    exact List.map_congr_left fun n _ => rfl

/-- C8 witness: two previously pinned nodes both end unpinned with no
fixed position. -/
theorem c8_background_dblclick_clears_all_pins_witness :
    (DragNode.mk "p1" 1 2 true (some 1) (some 2)).pinned = true
  ∧ (DragNode.mk "p2" 3 4 true (some 3) (some 4)).pinned = true
  ∧ (∀ n ∈ (containerDblclick false
        [DragNode.mk "p1" 1 2 true (some 1) (some 2),
         DragNode.mk "p2" 3 4 true (some 3) (some 4)]).1,
      n.pinned = false ∧ n.fx = none ∧ n.fy = none)
  ∧ (containerDblclick false
        [DragNode.mk "p1" 1 2 true (some 1) (some 2),
         DragNode.mk "p2" 3 4 true (some 3) (some 4)]).2 = some 0.4 := by
  have h := c8_background_dblclick_clears_all_pins
    [DragNode.mk "p1" 1 2 true (some 1) (some 2),
     DragNode.mk "p2" 3 4 true (some 3) (some 4)]
  exact ⟨rfl, rfl, h.1, h.2.2.2.2.2.1⟩

theorem applyPair_three_01 (padding alpha : ℚ) (m : String → Option Box)
    (x y z : SimNode) :
    applyPair padding alpha m [x, y, z] (0, 1)
      = [(pairStep padding alpha m x y).1, (pairStep padding alpha m x y).2, z] := rfl

theorem applyPair_three_02 (padding alpha : ℚ) (m : String → Option Box)
    (x y z : SimNode) :
    applyPair padding alpha m [x, y, z] (0, 2)
      = [(pairStep padding alpha m x z).1, y, (pairStep padding alpha m x z).2] := rfl

theorem applyPair_three_12 (padding alpha : ℚ) (m : String → Option Box)
    (x y z : SimNode) :
    applyPair padding alpha m [x, y, z] (1, 2)
      = [x, (pairStep padding alpha m y z).1, (pairStep padding alpha m y z).2] := rfl

theorem boxCollideForce_two (padding alpha : ℚ) (m : String → Option Box)
    (a b : SimNode) :
    boxCollideForce padding alpha m [a, b]
      = [(pairStep padding alpha m a b).1, (pairStep padding alpha m a b).2] := rfl

/-- The center distance strictly grows when a positive overlap is
resolved with positive energy along an axis, whatever the sign of the
original delta (a zero delta uses the epsilon direction). -/
theorem abs_lt_abs_add_overlap (u ox alpha : ℚ) (hox : 0 < ox) (ha : 0 < alpha) :
    |u| < |u + ox * mathSign (if u = 0 then 1/1000 else u) * alpha| := by
  rcases lt_trichotomy u 0 with hn | hz | hp
  · rw [if_neg hn.ne]
    have hs : mathSign u = -1 := by
      simp only [mathSign]
      rw [if_neg (not_lt.mpr hn.le), if_pos hn]
    rw [hs, abs_of_neg hn, abs_of_neg (show u + ox * (-1) * alpha < 0 by nlinarith)]
    nlinarith
  · subst hz
    rw [if_pos rfl]
    have hs : mathSign ((1 : ℚ)/1000) = 1 := by
      simp only [mathSign]
      rw [if_pos (by norm_num)]
    rw [hs, zero_add, abs_zero, abs_of_pos (by nlinarith)]
    nlinarith
  · rw [if_neg hp.ne']
    have hs : mathSign u = 1 := by
      simp only [mathSign]
      rw [if_pos hp]
    rw [hs, abs_of_pos hp, abs_of_pos (show 0 < u + ox * 1 * alpha by nlinarith)]
    nlinarith

/-- C6 counterexample: three 10-by-10 boxes on one horizontal line at
x = 0, 9.9 and 10, with padding 0 and energy 1.  Before the
invocation the first two boxes overlap on both axes (x overlap 0.1,
y overlap 10) and the invocation resolves that pair along x; but the
later pair (second, third) pushes the second box far back toward the
first, so after the whole invocation the first pair's x overlap has
grown to 4.975 and its y overlap is unchanged — on no axis did the
overlap strictly decrease. -/
theorem c6_whole_invocation_counterexample :
    (0 < (10 + 10 : ℚ) / 2 + 0 - |(99/10 : ℚ) - 0|
      ∧ 0 < (10 + 10 : ℚ) / 2 + 0 - |(0 : ℚ) - 0|)
  ∧ boxCollideForce 0 1 (fun _ => some (Box.mk 10 10))
      [SimNode.mk "n1" 0 0, SimNode.mk "n2" (99/10) 0, SimNode.mk "n3" 10 0]
      = [SimNode.mk "n1" (-(1/20)) 0, SimNode.mk "n2" (199/40) 0,
         SimNode.mk "n3" (599/40) 0]
  ∧ ¬((10 + 10 : ℚ) / 2 + 0 - |(199/40 : ℚ) - (-(1/20))|
        < (10 + 10 : ℚ) / 2 + 0 - |(99/10 : ℚ) - 0|)
  ∧ ¬((10 + 10 : ℚ) / 2 + 0 - |(0 : ℚ) - 0|
        < (10 + 10 : ℚ) / 2 + 0 - |(0 : ℚ) - 0|) := by
  refine ⟨⟨by norm_num [abs_of_pos], by norm_num⟩, ?_,
    by norm_num [abs_of_pos], by norm_num⟩
  have e1 : pairStep 0 1 (fun _ => some (Box.mk 10 10))
      (SimNode.mk "n1" 0 0) (SimNode.mk "n2" (99/10) 0)
      = (SimNode.mk "n1" (-(1/20)) 0, SimNode.mk "n2" (199/20) 0) := by
    unfold pairStep
    norm_num [mathSign, abs_of_pos, abs_of_neg]
  have e2 : pairStep 0 1 (fun _ => some (Box.mk 10 10))
      (SimNode.mk "n1" (-(1/20)) 0) (SimNode.mk "n3" 10 0)
      = (SimNode.mk "n1" (-(1/20)) 0, SimNode.mk "n3" 10 0) := by
    unfold pairStep
    norm_num [mathSign, abs_of_pos, abs_of_neg]
  have e3 : pairStep 0 1 (fun _ => some (Box.mk 10 10))
      (SimNode.mk "n2" (199/20) 0) (SimNode.mk "n3" 10 0)
      = (SimNode.mk "n2" (199/40) 0, SimNode.mk "n3" (599/40) 0) := by
    unfold pairStep
    norm_num [mathSign, abs_of_pos, abs_of_neg]
  show (pairIndices 3).foldl (applyPair 0 1 (fun _ => some (Box.mk 10 10)))
      [SimNode.mk "n1" 0 0, SimNode.mk "n2" (99/10) 0, SimNode.mk "n3" 10 0] = _
  rw [show pairIndices 3 = [(0, 1), (0, 2), (1, 2)] from rfl]
  simp only [List.foldl_cons, List.foldl_nil, applyPair_three_01]
  rw [e1]
  simp only [applyPair_three_02]
  rw [e2]
  simp only [applyPair_three_12]
  rw [e3]

/-- C6 (amended): for an invocation of the collision force over
exactly the overlapping pair — equivalently, immediately after the
pair's own resolution step, before any later pair moves the nodes
again — the overlap on the chosen axis strictly decreases for
positive energy.  (Over a multi-pair invocation a later pair can push
a node back towards an earlier partner, increasing that earlier
pair's overlap, as the counterexample shows.) -/
theorem c6_pair_invocation_decreases_chosen_overlap (padding alpha : ℚ)
    (measured : String → Option Box) (a b : SimNode) (A B : Box)
    (hA : measured a.id = some A) (hB : measured b.id = some B)
    (halpha : 0 < alpha) (overlapX overlapY : ℚ)
    (hoX : overlapX
      = (A.w + B.w) / 2 + padding - |if b.x - a.x = 0 then 1/1000 else b.x - a.x|)
    (hoY : overlapY
      = (A.h + B.h) / 2 + padding - |if b.y - a.y = 0 then 1/1000 else b.y - a.y|)
    (h1 : 0 < overlapX) (h2 : 0 < overlapY) :
    ∃ a' b', boxCollideForce padding alpha measured [a, b] = [a', b']
      ∧ (overlapX < overlapY →
          (A.w + B.w) / 2 + padding - |b'.x - a'.x|
            < (A.w + B.w) / 2 + padding - |b.x - a.x|)
      ∧ (¬overlapX < overlapY →
          (A.h + B.h) / 2 + padding - |b'.y - a'.y|
            < (A.h + B.h) / 2 + padding - |b.y - a.y|) := by
  refine ⟨_, _, boxCollideForce_two padding alpha measured a b, ?_, ?_⟩
  · intro hlt
    have hstep : pairStep padding alpha measured a b
        = ({ a with x := a.x
              - overlapX * mathSign (if b.x - a.x = 0 then 1/1000 else b.x - a.x)
                * alpha / 2 },
           { b with x := b.x
              + overlapX * mathSign (if b.x - a.x = 0 then 1/1000 else b.x - a.x)
                * alpha / 2 }) := by
      rw [pairStep_eq_of_measured padding alpha measured a b A B hA hB]
      simp only []
      rw [if_pos ⟨hoX ▸ h1, hoY ▸ h2⟩, if_pos (hoX ▸ hoY ▸ hlt)]
      rw [← hoX]
    rw [hstep]
    have hx : ({ b with x := b.x
          + overlapX * mathSign (if b.x - a.x = 0 then 1/1000 else b.x - a.x)
            * alpha / 2 } : SimNode).x
        - ({ a with x := a.x
          - overlapX * mathSign (if b.x - a.x = 0 then 1/1000 else b.x - a.x)
            * alpha / 2 } : SimNode).x
        = (b.x - a.x)
          + overlapX * mathSign (if b.x - a.x = 0 then 1/1000 else b.x - a.x)
            * alpha := by
      simp only []
      ring
    rw [hx]
    exact sub_lt_sub_left
      (abs_lt_abs_add_overlap (b.x - a.x) overlapX alpha h1 halpha) _
  · intro hge
    have hstep : pairStep padding alpha measured a b
        = ({ a with y := a.y
              - overlapY * mathSign (if b.y - a.y = 0 then 1/1000 else b.y - a.y)
                * alpha / 2 },
           { b with y := b.y
              + overlapY * mathSign (if b.y - a.y = 0 then 1/1000 else b.y - a.y)
                * alpha / 2 }) := by
      rw [pairStep_eq_of_measured padding alpha measured a b A B hA hB]
      simp only []
      rw [if_pos ⟨hoX ▸ h1, hoY ▸ h2⟩, if_neg (hoX ▸ hoY ▸ hge)]
      rw [← hoY]
    rw [hstep]
    have hy : ({ b with y := b.y
          + overlapY * mathSign (if b.y - a.y = 0 then 1/1000 else b.y - a.y)
            * alpha / 2 } : SimNode).y
        - ({ a with y := a.y
          - overlapY * mathSign (if b.y - a.y = 0 then 1/1000 else b.y - a.y)
            * alpha / 2 } : SimNode).y
        = (b.y - a.y)
          + overlapY * mathSign (if b.y - a.y = 0 then 1/1000 else b.y - a.y)
            * alpha := by
      simp only []
      ring
    rw [hy]
    exact sub_lt_sub_left
      (abs_lt_abs_add_overlap (b.y - a.y) overlapY alpha h2 halpha) _

/-- C6 witness: 10-by-10 boxes at x = 0 and 9.9 on one line, padding
0, energy 1: the pair-only invocation resolves along x (overlap 0.1
against 9.999) and the x overlap strictly decreases. -/
theorem c6_pair_invocation_decreases_chosen_overlap_witness :
    ((fun _ => some (Box.mk 10 10)) : String → Option Box)
        (SimNode.mk "n1" 0 0).id = some (Box.mk 10 10)
  ∧ (0 : ℚ) < 1
  ∧ (1/10 : ℚ)
      = (10 + 10) / 2 + 0 - |if (99/10 : ℚ) - 0 = 0 then 1/1000 else 99/10 - 0|
  ∧ ∃ a' b', boxCollideForce 0 1 (fun _ => some (Box.mk 10 10))
        [SimNode.mk "n1" 0 0, SimNode.mk "n2" (99/10) 0] = [a', b']
      ∧ ((1/10 : ℚ) < 9999/1000 →
          (10 + 10 : ℚ) / 2 + 0 - |b'.x - a'.x|
            < (10 + 10 : ℚ) / 2 + 0 - |(SimNode.mk "n2" (99/10) 0).x
                - (SimNode.mk "n1" 0 0).x|)
      ∧ (¬(1/10 : ℚ) < 9999/1000 →
          (10 + 10 : ℚ) / 2 + 0 - |b'.y - a'.y|
            < (10 + 10 : ℚ) / 2 + 0 - |(SimNode.mk "n2" (99/10) 0).y
                - (SimNode.mk "n1" 0 0).y|) := by
  refine ⟨rfl, by norm_num, by norm_num [abs_of_pos], ?_⟩
  exact c6_pair_invocation_decreases_chosen_overlap 0 1
    (fun _ => some (Box.mk 10 10))
    (SimNode.mk "n1" 0 0) (SimNode.mk "n2" (99/10) 0)
    (Box.mk 10 10) (Box.mk 10 10) rfl rfl (by norm_num)
    (1/10) (9999/1000)
    (by norm_num [abs_of_pos])
    (by rw [if_pos (by norm_num : (0:ℚ) - 0 = 0),
          abs_of_pos (by norm_num : (0:ℚ) < 1/1000)]
        norm_num)
    (by norm_num) (by norm_num)

end Mindgen
